import Mathlib

/-!
Verification of the PageRank implementation in `pagerank.py`.

The program manipulates Python dicts whose iteration order is insertion
order; these are embedded as association lists (`List (α × _)`).  Python
floats are embedded as exact rationals `ℚ`.  The process-wide random
generator is embedded as a stream `U : ℕ → ℚ` of pre-drawn uniform values
in `[0,1)`; each call to `random.uniform(0,1)` or `random.choice`
consumes one draw.  Division by zero in `ℚ` yields `0`; it is only ever
reached on the empty corpus, where the Python code would raise, and every
theorem about such a function assumes a non-empty corpus.
-/

namespace PageRank

variable {α : Type} [DecidableEq α]

/-- A Python dict with `ℚ` values, in insertion order. -/
abbrev Dist (α : Type) := List (α × ℚ)

/-- Python `d[k]` as an `Option`: the value at the first entry whose key is `k`. -/
def dictFind? : List (α × β) → α → Option β
  | [], _ => none
  | e :: rest, k => if e.1 = k then some e.2 else dictFind? rest k

/-- Python `d[k]` with a default value for a missing key. -/
def dictGetD (l : List (α × β)) (k : α) (dfl : β) : β :=
  (dictFind? l k).getD dfl

/-- Python `d[k] = v`: update the first entry with key `k` in place,
or append a fresh entry at the end (insertion-order semantics). -/
def dictSet : List (α × β) → α → β → List (α × β)
  | [], k, v => [(k, v)]
  | e :: rest, k, v => if e.1 = k then (k, v) :: rest else e :: dictSet rest k v

/-- Python `d[k] += 1` on a counter dict: increments the first entry with
key `k`; a missing key is left alone (the Python code only ever
increments existing keys on well-formed corpora). -/
def dictIncr : List (α × ℕ) → α → List (α × ℕ)
  | [], _ => []
  | e :: rest, k => if e.1 = k then (e.1, e.2 + 1) :: rest else e :: dictIncr rest k

/-- `corpus[page]`: the outlink list of `page` (empty when `page` is not a key;
the Python code would raise `KeyError` there, a case no theorem relies on). -/
def corpusLinks (corpus : List (α × List α)) (page : α) : List α :=
  (dictFind? corpus page).getD []

/-- The graph invariant from the spec: every outlink target is itself a key. -/
def wellFormed (corpus : List (α × List α)) : Prop :=
  ∀ e ∈ corpus, ∀ x ∈ e.2, x ∈ corpus.map Prod.fst

instance (corpus : List (α × List α)) : Decidable (wellFormed corpus) := by
  unfold wellFormed; infer_instance

/-- `transition_model(corpus, page, damping_factor)` from `pagerank.py`:
starts the result dict at `{page: remain}` and then assigns
`probability_per_link + remain` to each outlink of `page`.  Note that the
resulting dict holds keys only for `page` and its outlinks. -/
def transition_model (corpus : List (α × List α)) (page : α) (d : ℚ) : Dist α :=
  let links := corpusLinks corpus page
  let per_link : ℚ := if links.length > 0 then d / (links.length : ℚ) else 0
  let remain : ℚ := (1 - d) / (corpus.length : ℚ)
  links.foldl (fun acc k => dictSet acc k (per_link + remain)) [(page, remain)]

/-- `random.choice(l)`: one pre-drawn uniform value `u ∈ [0,1)` selects
index `⌊u·|l|⌋`.  The default is only reached on an empty list, where
Python would raise. -/
def pyChoice (l : List α) (u : ℚ) (dfl : α) : α :=
  l.getD (Int.toNat ⌊u * (l.length : ℚ)⌋) dfl

/-- The inner selection loop of `sample_pagerank`: walk the distribution in
iteration order accumulating `running_prob`; the first entry whose
cumulative mass reaches the draw `u` is chosen; if the loop finishes
without choosing, `current_page` (`cur`) is left unchanged. -/
def cdfSelect (u : ℚ) (cur : α) : Dist α → ℚ → α
  | [], _ => cur
  | (p, pr) :: rest, acc => if u ≤ acc + pr then p else cdfSelect u cur rest (acc + pr)

/-- One step of the sampling walk in `sample_pagerank`: first draw `choice`;
if `choice ≤ damping_factor`, inverse-CDF selection over
`transition_model` with a second draw `u`; otherwise `random.choice`
over all pages using `u`. -/
def sampleNext (corpus : List (α × List α)) (d : ℚ) (pages : List α)
    (cur : α) (choice u : ℚ) : α :=
  if choice ≤ d then cdfSelect u cur (transition_model corpus cur d) 0
  else pyChoice pages u cur

/-- The main loop of `sample_pagerank`: `n` steps, each recording a visit to
the current page and then moving via `sampleNext`; `k` indexes the next
unconsumed random draw (each step consumes two draws). -/
def sampleWalk (corpus : List (α × List α)) (d : ℚ) (U : ℕ → ℚ) (pages : List α) :
    ℕ → List (α × ℕ) → α → ℕ → List (α × ℕ)
  | 0, counts, _, _ => counts
  | n + 1, counts, cur, k =>
      sampleWalk corpus d U pages n (dictIncr counts cur)
        (sampleNext corpus d pages cur (U k) (U (k + 1))) (k + 2)

/-- `sample_pagerank(corpus, damping_factor, n)` from `pagerank.py`, with the
random generator as the stream `U`: zero-initialize `page_count`, pick a
uniformly random starting page, walk `n` steps, then divide each count
by `n`. -/
def sample_pagerank [Inhabited α] (corpus : List (α × List α)) (d : ℚ) (n : ℕ)
    (U : ℕ → ℚ) : Dist α :=
  let pages := corpus.map Prod.fst
  let counts0 : List (α × ℕ) := corpus.map (fun e => (e.1, 0))
  let cur0 := pyChoice pages (U 0) default
  let counts := sampleWalk corpus d U pages n counts0 cur0 1
  counts.map (fun e => (e.1, (e.2 : ℚ) / (n : ℚ)))

/-- Modelled from the spec, for comparison with `sampleNext`: draw the next
current node from `transition(graph, currentNode, dampingFactor)` by
drawing a single uniform value and selecting the node whose cumulative
probability mass first reaches it (no separate damping coin flip). -/
def specSampleNext (corpus : List (α × List α)) (d : ℚ) (cur : α) (u : ℚ) : α :=
  cdfSelect u cur (transition_model corpus cur d) 0

/-- The inner summation of `iterate_pagerank` for target page `cur`: fold
over all corpus entries, skipping `cur` itself and every page that does
not link to `cur`; a linking page with `m > 0` outlinks contributes
`d·PR/m`, and the (unreachable) zero-outlink branch would contribute
`d·PR/N`. -/
def iterInner (N : ℕ) (d : ℚ) (prob : Dist α) (cur : α)
    (entries : List (α × List α)) : ℚ :=
  entries.foldl
    (fun acc e =>
      if e.1 = cur then acc
      else if cur ∈ e.2 then
        (if e.2.length ≠ 0 then acc + d * (dictGetD prob e.1 0 / (e.2.length : ℚ))
         else acc + d * (dictGetD prob e.1 0 / (N : ℚ)))
      else acc)
    0

/-- One pass of the `while` loop in `iterate_pagerank` over the remaining
keys: build up `new_prob_page` (`acc`), and as soon as one key's delta is
below `0.001`, return the PREVIOUS distribution (`Sum.inl prob`) from the
whole function; otherwise finish the pass (`Sum.inr`). -/
def passGo (corpus : List (α × List α)) (d : ℚ) (prob : Dist α) :
    List (α × List α) → Dist α → Dist α ⊕ Dist α
  | [], acc => Sum.inr acc
  | (key, _) :: rest, acc =>
      let newVal : ℚ := (1 - d) / (corpus.length : ℚ) + iterInner corpus.length d prob key corpus
      let prev : ℚ := dictGetD prob key 0
      if |newVal - prev| < 1 / 1000 then Sum.inl prob
      else passGo corpus d prob rest (dictSet acc key newVal)

/-- The `while cnt < 100` loop: run passes until one early-returns or the
fuel runs out; falling out of the loop models the implicit `return None`
at the end of the Python function. -/
def iterLoop (corpus : List (α × List α)) (d : ℚ) : ℕ → Dist α → Option (Dist α)
  | 0, _ => none
  | n + 1, prob =>
      match passGo corpus d prob corpus [] with
      | Sum.inl ret => some ret
      | Sum.inr newProb => iterLoop corpus d n newProb

/-- `iterate_pagerank(corpus, damping_factor)` from `pagerank.py`:
initialize every page at `1/N` and run at most 100 passes. -/
def iterate_pagerank (corpus : List (α × List α)) (d : ℚ) : Option (Dist α) :=
  iterLoop corpus d 100 (corpus.map (fun e => (e.1, 1 / (corpus.length : ℚ))))

/-- One unfolding of `iterLoop` when the pass completes without an early
return. -/
theorem iterLoop_inr {corpus : List (α × List α)} {d : ℚ} {n : ℕ} {prob p : Dist α}
    (h : passGo corpus d prob corpus [] = Sum.inr p) :
    iterLoop corpus d (n + 1) prob = iterLoop corpus d n p := by
  simp only [iterLoop, h]

/-- One unfolding of `iterLoop` when the pass returns early. -/
theorem iterLoop_inl {corpus : List (α × List α)} {d : ℚ} {n : ℕ} {prob r : Dist α}
    (h : passGo corpus d prob corpus [] = Sum.inl r) :
    iterLoop corpus d (n + 1) prob = some r := by
  simp only [iterLoop, h]

end PageRank

namespace PageRank

variable {α : Type} [DecidableEq α]

/-- C1: the spec requires the transition distribution to sum to 1 (within
`1e-9 · N`) with every node of a dangling page's corpus receiving `1/N`.
The code refutes this: on the two-page corpus where "A" is dangling
(`N = 2`, `d = 17/20`), `transition_model` returns the single entry
`("A", (1-d)/N) = ("A", 3/40)`; page "B" receives nothing and the values
sum to `3/40`, missing 1 by far more than `2·1e-9`. -/
theorem C1_transition_dangling_eval :
    transition_model [("A", ([] : List String)), ("B", ["A"])] "A" (17/20) = [("A", 3/40)] ∧
    2 / 1000000000 <
      |((transition_model [("A", ([] : List String)), ("B", ["A"])] "A" (17/20)).map
          Prod.snd).sum - 1| := by
  constructor
  · norm_num +decide [transition_model, corpusLinks, dictFind?, dictSet]
  · rw [show transition_model [("A", ([] : List String)), ("B", ["A"])] "A" (17/20) =
        [("A", 3/40)] by norm_num +decide [transition_model, corpusLinks, dictFind?, dictSet]]
    norm_num [lt_abs]

/-- C2: the spec requires every node of the graph to be a key of the
transition distribution, non-linked nodes receiving `(1-d)/N`.  The code
refutes this: on the three-page corpus with current page "A" linking only
to "B" (`d = 17/20`), the returned dict has keys "A", "B" only — page "C"
is not a key at all (the per-key values `(1-d)/N = 1/20` for "A" and
`d/|L| + (1-d)/N = 9/10` for "B" do match the claim). -/
theorem C2_transition_missing_keys :
    transition_model [("A", ["B"]), ("B", ["A"]), ("C", ["A"])] "A" (17/20) =
      [("A", 1/20), ("B", 9/10)] ∧
    "C" ∉ (transition_model [("A", ["B"]), ("B", ["A"]), ("C", ["A"])] "A" (17/20)).map
        Prod.fst := by
  constructor
  · norm_num +decide [transition_model, corpusLinks, dictFind?, dictSet]
  · rw [show transition_model [("A", ["B"]), ("B", ["A"]), ("C", ["A"])] "A" (17/20) =
        [("A", 1/20), ("B", 9/10)] by
          norm_num +decide [transition_model, corpusLinks, dictFind?, dictSet]]
    decide

/-- C3: the spec requires termination only when the maximum delta across ALL
nodes is below `0.001`, returning the fully computed new pass.  The code
refutes this: on the corpus `{A:[B], B:[A], C:[A]}` with `d = 17/20`, the
very first pass computes node "A"'s new value `37/60` (delta
`17/60 ≥ 0.001`, second conjunct) yet returns as soon as node "B"'s delta
is `0`, handing back the untouched uniform initial distribution. -/
theorem C3_premature_return_eval :
    iterate_pagerank [("A", ["B"]), ("B", ["A"]), ("C", ["A"])] (17/20) =
      some [("A", 1/3), ("B", 1/3), ("C", 1/3)] ∧
    1 / 1000 ≤
      |(1 - 17/20) / 3 +
          iterInner 3 (17/20) [("A", (1:ℚ)/3), ("B", 1/3), ("C", 1/3)] "A"
            [("A", ["B"]), ("B", ["A"]), ("C", ["A"])] - 1/3| := by
  constructor
  · have h0 : passGo [("A", ["B"]), ("B", ["A"]), ("C", ["A"])] (17/20)
        [("A", (1:ℚ)/3), ("B", 1/3), ("C", 1/3)] [("A", ["B"]), ("B", ["A"]), ("C", ["A"])]
        [] = Sum.inl [("A", 1/3), ("B", 1/3), ("C", 1/3)] := by
      norm_num +decide [passGo, iterInner, dictGetD, dictFind?, dictSet, abs_sub_lt_iff, abs_lt]
    have hinit : iterate_pagerank [("A", ["B"]), ("B", ["A"]), ("C", ["A"])] (17/20) =
        iterLoop [("A", ["B"]), ("B", ["A"]), ("C", ["A"])] (17/20) 100
          [("A", 1/3), ("B", 1/3), ("C", 1/3)] := by
      norm_num [iterate_pagerank]
    rw [hinit, show (100 : ℕ) = 99 + 1 from rfl, iterLoop_inl h0]
  · norm_num +decide [iterInner, dictGetD, dictFind?, le_abs]

/-- C4: the spec requires a dangling node `q` to contribute `d·PR(q)/N` to
every node's new rank each pass.  The code refutes this: in the inner
summation of `iterate_pagerank`, an entry with an empty outlink list is
always skipped (its `cur_page not in page_links_set` test fires), so
removing a dangling entry from the corpus list changes nothing — its rank
mass is dropped entirely. -/
theorem C4_dangling_contributes_nothing (N : ℕ) (d : ℚ) (prob : Dist α) (p q : α)
    (pre post : List (α × List α)) :
    iterInner N d prob p (pre ++ (q, []) :: post) = iterInner N d prob p (pre ++ post) := by
  unfold iterInner
  rw [List.foldl_append, List.foldl_append, List.foldl_cons]
  congr 1
  simp

/-- C5: the spec requires each step's successor to be drawn from exactly
`transition(graph, currentNode, d)` by a single uniform draw and
inverse-CDF selection.  The code refutes this: it first flips a coin
against the damping factor and, on the `choice > d` branch, restarts
uniformly.  Concretely on `{A:[B], B:[A]}` with `d = 17/20` and draws
`(9/10, 0)`, the code restarts to "A", while inverse-CDF selection over
the transition distribution at the same draw `9/10` selects "B". -/
theorem C5_extra_coinflip_step :
    sampleNext [("A", ["B"]), ("B", ["A"])] (17/20) ["A", "B"] "A" (9/10) 0 = "A" ∧
    specSampleNext [("A", ["B"]), ("B", ["A"])] (17/20) "A" (9/10) = "B" := by
  constructor
  · norm_num +decide [sampleNext, pyChoice]
  · norm_num +decide [specSampleNext, cdfSelect, transition_model, corpusLinks, dictFind?,
      dictSet]

/-- C8: the spec requires the converged distribution to be renormalized to
sum to 1 within `1e-6`.  The code refutes this: it never renormalizes,
and on the single dangling page `{A: {}}` with `d = 17/20` it returns
`{A: 3/20}`, whose total misses 1 by `17/20`. -/
theorem C8_no_renormalization_eval :
    iterate_pagerank [("A", ([] : List String))] (17/20) = some [("A", 3/20)] ∧
    1 / 1000000 < |(([("A", (3:ℚ)/20)] : Dist String).map Prod.snd).sum - 1| := by
  constructor
  · have h0 : passGo [("A", ([] : List String))] (17/20) [("A", 1)]
        [("A", ([] : List String))] [] = Sum.inr [("A", 3/20)] := by
      norm_num +decide [passGo, iterInner, dictGetD, dictFind?, dictSet, abs_sub_lt_iff, abs_lt]
    have h1 : passGo [("A", ([] : List String))] (17/20) [("A", 3/20)]
        [("A", ([] : List String))] [] = Sum.inl [("A", 3/20)] := by
      norm_num +decide [passGo, iterInner, dictGetD, dictFind?, dictSet, abs_sub_lt_iff, abs_lt]
    have hinit : iterate_pagerank [("A", ([] : List String))] (17/20) =
        iterLoop [("A", ([] : List String))] (17/20) 100 [("A", 1)] := by
      norm_num [iterate_pagerank]
    rw [hinit, show (100 : ℕ) = 99 + 1 from rfl, iterLoop_inr h0,
      show (99 : ℕ) = 98 + 1 from rfl, iterLoop_inl h1]
  · norm_num [lt_abs]

/-- C9: the spec requires both estimators to return `{A: 1.0}` on the
single-node graph `{A: {}}`.  The code refutes the iterative half: with
`d = 1/2` the first pass drops "A"'s rank to `1-d = 1/2`, and the second
pass's zero delta returns that stale value `{A: 1/2} ≠ {A: 1}`.  (The
sampling half does hold.) -/
theorem C9_single_node_iterate_eval :
    iterate_pagerank [("A", ([] : List String))] (1/2) = some [("A", 1/2)] ∧
    ([("A", (1:ℚ)/2)] : Dist String) ≠ [("A", 1)] := by
  constructor
  · have h0 : passGo [("A", ([] : List String))] (1/2) [("A", 1)]
        [("A", ([] : List String))] [] = Sum.inr [("A", 1/2)] := by
      norm_num +decide [passGo, iterInner, dictGetD, dictFind?, dictSet, abs_sub_lt_iff, abs_lt]
    have h1 : passGo [("A", ([] : List String))] (1/2) [("A", 1/2)]
        [("A", ([] : List String))] [] = Sum.inl [("A", 1/2)] := by
      norm_num +decide [passGo, iterInner, dictGetD, dictFind?, dictSet, abs_sub_lt_iff, abs_lt]
    have hinit : iterate_pagerank [("A", ([] : List String))] (1/2) =
        iterLoop [("A", ([] : List String))] (1/2) 100 [("A", 1)] := by
      norm_num [iterate_pagerank]
    rw [hinit, show (100 : ℕ) = 99 + 1 from rfl, iterLoop_inr h0,
      show (99 : ℕ) = 98 + 1 from rfl, iterLoop_inl h1]
  · norm_num

/-- C10: confirmed — in the sampling step, when the uniform draw exceeds the
accumulated total probability mass of the (nonnegative-valued)
distribution, the selection loop finishes without choosing and the
current page is left unchanged; in particular a walk sitting at a
dangling page stays there on every `choice ≤ d` step, since the
transition dict then holds the single entry `(page, (1-d)/N)`. -/
theorem C10_fallthrough_keeps_current :
    (∀ (dist : Dist α) (u acc : ℚ) (cur : α), (∀ e ∈ dist, 0 ≤ e.2) →
        acc + (dist.map Prod.snd).sum < u → cdfSelect u cur dist acc = cur) ∧
    (∀ (corpus : List (α × List α)) (d : ℚ) (pages : List α) (page : α) (choice u : ℚ),
        dictFind? corpus page = some [] → choice ≤ d →
        sampleNext corpus d pages page choice u = page) := by
  constructor
  · intro dist
    induction dist with
    | nil => intro u acc cur _ _; rfl
    | cons e rest ih =>
      obtain ⟨p, pr⟩ := e
      intro u acc cur hnn hsum
      simp only [List.map_cons, List.sum_cons] at hsum
      have h0 : 0 ≤ (rest.map Prod.snd).sum := by
        apply List.sum_nonneg
        intro x hx
        obtain ⟨e', he', rfl⟩ := List.mem_map.mp hx
        exact hnn e' (List.mem_cons_of_mem _ he')
      simp only [cdfSelect]
      rw [if_neg (by push_neg; linarith)]
      exact ih u (acc + pr) cur (fun e' he' => hnn e' (List.mem_cons_of_mem _ he'))
        (by linarith)
  · intro corpus d pages page choice u hfind hch
    unfold sampleNext
    rw [if_pos hch]
    unfold transition_model corpusLinks
    rw [hfind]
    simp only [Option.getD, List.foldl]
    simp only [cdfSelect]
    split <;> rfl

/-- Witness for C10 at concrete inputs: the draw `1` exceeds the total mass
`1/4`, so selection keeps "Z"; and a damped step at the dangling page "A"
of `{A: {}}` stays at "A". -/
theorem C10_witness :
    ((0:ℚ) + (([("A", (1:ℚ)/4)] : Dist String).map Prod.snd).sum < 1 ∧
      cdfSelect 1 "Z" [("A", (1:ℚ)/4)] 0 = "Z") ∧
    (dictFind? [("A", ([] : List String))] "A" = some [] ∧
      sampleNext [("A", ([] : List String))] (17/20) ["A"] "A" (1/2) (9/10) = "A") :=
  ⟨⟨by norm_num,
    C10_fallthrough_keeps_current.1 [("A", 1/4)] 1 0 "Z" (by norm_num) (by norm_num)⟩,
   ⟨by norm_num [dictFind?],
    C10_fallthrough_keeps_current.2 [("A", [])] (17/20) ["A"] "A" (1/2) (9/10)
      (by norm_num [dictFind?]) (by norm_num)⟩⟩

/-- A successful `dictFind?` returns an entry of the list. -/
theorem dictFind?_mem {β : Type} {c : List (α × β)} {k : α} {v : β}
    (h : dictFind? c k = some v) : (k, v) ∈ c := by
  induction c with
  | nil => simp [dictFind?] at h
  | cons e rest ih =>
    rw [dictFind?] at h
    split at h
    · rename_i he
      obtain ⟨a, b⟩ := e
      cases h
      simp_all
    · exact List.mem_cons_of_mem _ (ih h)

/-- On a well-formed corpus, every outlink of any page is itself a key. -/
theorem corpusLinks_mem {corpus : List (α × List α)} (hwf : wellFormed corpus) (p : α) :
    ∀ x ∈ corpusLinks corpus p, x ∈ corpus.map Prod.fst := by
  intro x hx
  unfold corpusLinks at hx
  cases h : dictFind? corpus p with
  | none => rw [h] at hx; simp at hx
  | some ls =>
    rw [h] at hx
    simp only [Option.getD_some] at hx
    exact hwf (p, ls) (dictFind?_mem h) x hx

/-- `dictSet` introduces no key besides the one written. -/
theorem dictSet_keys {β : Type} {c : List (α × β)} {k : α} {v : β} :
    ∀ x ∈ (dictSet c k v).map Prod.fst, x = k ∨ x ∈ c.map Prod.fst := by
  induction c with
  | nil => intro x hx; simp [dictSet] at hx; exact Or.inl hx
  | cons e rest ih =>
    intro x hx
    rw [dictSet] at hx
    split at hx
    · simp at hx
      rcases hx with h | h
      · exact Or.inl h
      · exact Or.inr (by simp [h])
    · simp at hx
      rcases hx with h | h
      · exact Or.inr (by simp [h])
      · rcases ih x (by simpa using h) with h' | h'
        · exact Or.inl h'
        · exact Or.inr (by simp_all)

/-- Folding `dictSet` over a key list introduces no key outside the initial
dict and that list. -/
theorem foldl_dictSet_keys (links : List α) (v : ℚ) :
    ∀ (init : Dist α), ∀ x ∈ (links.foldl (fun acc k => dictSet acc k v) init).map Prod.fst,
      x ∈ init.map Prod.fst ∨ x ∈ links := by
  induction links with
  | nil => intro init x hx; exact Or.inl hx
  | cons l ls ih =>
    intro init x hx
    rw [List.foldl_cons] at hx
    rcases ih (dictSet init l v) x hx with h | h
    · rcases dictSet_keys x h with h' | h'
      · exact Or.inr (by simp [h'])
      · exact Or.inl h'
    · exact Or.inr (List.mem_cons_of_mem _ h)

/-- Every key of the transition dict is the current page or one of its
outlinks. -/
theorem transition_model_keys {corpus : List (α × List α)} {page : α} {d : ℚ} :
    ∀ x ∈ (transition_model corpus page d).map Prod.fst,
      x = page ∨ x ∈ corpusLinks corpus page := by
  intro x hx
  simp only [transition_model] at hx
  rcases foldl_dictSet_keys _ _ _ x hx with h | h
  · simp at h; exact Or.inl h
  · exact Or.inr h

/-- The inner selection loop yields the unchanged current page or a key of
the distribution. -/
theorem cdfSelect_mem (u : ℚ) (cur : α) (dist : Dist α) (acc : ℚ) :
    cdfSelect u cur dist acc = cur ∨ cdfSelect u cur dist acc ∈ dist.map Prod.fst := by
  induction dist generalizing acc with
  | nil => exact Or.inl rfl
  | cons e rest ih =>
    obtain ⟨p, pr⟩ := e
    simp only [cdfSelect]
    split
    · exact Or.inr (by simp)
    · rcases ih (acc + pr) with h | h
      · exact Or.inl h
      · exact Or.inr (by simp [h])

/-- `pyChoice` yields a list element or the default. -/
theorem pyChoice_mem_or (l : List α) (u : ℚ) (dfl : α) :
    pyChoice l u dfl ∈ l ∨ pyChoice l u dfl = dfl := by
  unfold pyChoice
  rcases Nat.lt_or_ge (Int.toNat ⌊u * (l.length : ℚ)⌋) l.length with h | h
  · left
    rw [List.getD_eq_getElem _ _ h]
    exact List.getElem_mem h
  · right
    exact List.getD_eq_default _ _ h

/-- For a draw in `[0,1)` and a non-empty list, `pyChoice` yields a list
element. -/
theorem pyChoice_mem {l : List α} {u : ℚ} (dfl : α) (_h0 : 0 ≤ u) (h1 : u < 1)
    (hl : l ≠ []) : pyChoice l u dfl ∈ l := by
  have hlen : 0 < l.length := List.length_pos.mpr hl
  have hidx : Int.toNat ⌊u * (l.length : ℚ)⌋ < l.length := by
    have hmul : u * (l.length : ℚ) < (l.length : ℚ) := by
      calc u * (l.length : ℚ) < 1 * (l.length : ℚ) :=
            mul_lt_mul_of_pos_right h1 (by exact_mod_cast hlen)
        _ = (l.length : ℚ) := one_mul _
    have hfl : ⌊u * (l.length : ℚ)⌋ < (l.length : ℤ) := by
      rw [Int.floor_lt]; exact_mod_cast hmul
    omega
  unfold pyChoice
  rw [List.getD_eq_getElem _ _ hidx]
  exact List.getElem_mem hidx

/-- `dictIncr` leaves the key list untouched. -/
theorem dictIncr_keys (c : List (α × ℕ)) (x : α) :
    (dictIncr c x).map Prod.fst = c.map Prod.fst := by
  induction c with
  | nil => rfl
  | cons e rest ih =>
    rw [dictIncr]
    split <;> simp [ih]

/-- Incrementing an existing key raises the count total by exactly one. -/
theorem dictIncr_sum {c : List (α × ℕ)} {x : α} (hx : x ∈ c.map Prod.fst) :
    ((dictIncr c x).map Prod.snd).sum = (c.map Prod.snd).sum + 1 := by
  induction c with
  | nil => simp at hx
  | cons e rest ih =>
    rw [dictIncr]
    split
    · simp only [List.map_cons, List.sum_cons]
      omega
    · rename_i hne
      rw [List.map_cons, List.mem_cons] at hx
      have hx' : x ∈ rest.map Prod.fst := by
        rcases hx with h | h
        · exact absurd h.symm hne
        · exact h
      simp only [List.map_cons, List.sum_cons, ih hx']
      omega

/-- Pairing each key with a function of its entry leaves the key list
untouched. -/
theorem map_fst_pair (c : List (α × ℕ)) (f : α × ℕ → ℚ) :
    ((c.map (fun e => (e.1, f e))).map Prod.fst) = c.map Prod.fst := by
  induction c <;> simp_all

/-- The zero-initialized counter dict has the corpus keys. -/
theorem map_fst_zeros (c : List (α × List α)) :
    ((c.map (fun e => (e.1, (0:ℕ)))).map Prod.fst) = c.map Prod.fst := by
  induction c <;> simp_all

/-- The zero-initialized counter dict totals zero. -/
theorem sum_zeros (c : List (α × List α)) :
    ((c.map (fun e => (e.1, (0:ℕ)))).map Prod.snd).sum = 0 := by
  induction c <;> simp_all

/-- Dividing every count by `m` divides the total by `m`. -/
theorem sum_map_div (c : List (α × ℕ)) (m : ℚ) :
    ((c.map (fun e => (e.1, (e.2 : ℚ) / m))).map Prod.snd).sum =
      (((c.map Prod.snd).sum : ℕ) : ℚ) / m := by
  induction c with
  | nil => simp
  | cons e rest ih =>
    simp only [List.map_cons, List.sum_cons, ih]
    push_cast
    rw [add_div]

/-- The sampling step stays inside the corpus key set on well-formed
corpora. -/
theorem sampleNext_mem {corpus : List (α × List α)} (d : ℚ) {cur : α}
    (hwf : wellFormed corpus) (hcur : cur ∈ corpus.map Prod.fst) (choice u : ℚ) :
    sampleNext corpus d (corpus.map Prod.fst) cur choice u ∈ corpus.map Prod.fst := by
  unfold sampleNext
  split
  · rcases cdfSelect_mem u cur (transition_model corpus cur d) 0 with h | h
    · rw [h]; exact hcur
    · rcases transition_model_keys _ h with h' | h'
      · rw [h']; exact hcur
      · exact corpusLinks_mem hwf cur _ h'
  · rcases pyChoice_mem_or (corpus.map Prod.fst) u cur with h | h
    · exact h
    · rw [h]; exact hcur

/-- The walk preserves the counter's key list and adds exactly one visit per
step, provided the current page starts inside the key set. -/
theorem sampleWalk_spec {corpus : List (α × List α)} {d : ℚ} {U : ℕ → ℚ}
    (hwf : wellFormed corpus) :
    ∀ (n : ℕ) (counts : List (α × ℕ)) (cur : α) (k : ℕ),
      cur ∈ corpus.map Prod.fst → counts.map Prod.fst = corpus.map Prod.fst →
      (sampleWalk corpus d U (corpus.map Prod.fst) n counts cur k).map Prod.fst =
          corpus.map Prod.fst ∧
      ((sampleWalk corpus d U (corpus.map Prod.fst) n counts cur k).map Prod.snd).sum =
          (counts.map Prod.snd).sum + n := by
  intro n
  induction n with
  | zero => intro counts cur k _ hkeys; exact ⟨hkeys, by simp [sampleWalk]⟩
  | succ n ih =>
    intro counts cur k hcur hkeys
    rw [sampleWalk]
    have hnext := sampleNext_mem d hwf hcur (U k) (U (k + 1))
    have hkeys' : (dictIncr counts cur).map Prod.fst = corpus.map Prod.fst := by
      rw [dictIncr_keys]; exact hkeys
    obtain ⟨hk, hs⟩ := ih (dictIncr counts cur) _ (k + 2) hnext hkeys'
    refine ⟨hk, ?_⟩
    rw [hs, dictIncr_sum (by rw [hkeys]; exact hcur)]
    omega

/-- C7: confirmed — on a non-empty well-formed corpus, with draws in `[0,1)`
and a positive sample count, `sample_pagerank` returns a dict whose keys
are exactly the corpus keys and whose values sum to exactly 1: each step
increments exactly one existing counter, so the visit counts partition
`n` and dividing by `n` totals `n/n = 1`. -/
theorem C7_sample_sum_one [Inhabited α] (corpus : List (α × List α)) (d : ℚ)
    (n : ℕ) (U : ℕ → ℚ) (hc : corpus ≠ []) (hwf : wellFormed corpus)
    (hU : ∀ j, 0 ≤ U j ∧ U j < 1) (hn : 0 < n) :
    (sample_pagerank corpus d n U).map Prod.fst = corpus.map Prod.fst ∧
    ((sample_pagerank corpus d n U).map Prod.snd).sum = 1 := by
  simp only [sample_pagerank]
  have hpages : corpus.map Prod.fst ≠ [] := by simpa using hc
  have hcur0 : pyChoice (corpus.map Prod.fst) (U 0) default ∈ corpus.map Prod.fst :=
    pyChoice_mem default (hU 0).1 (hU 0).2 hpages
  have hkeys0 := map_fst_zeros corpus
  obtain ⟨hk, hs⟩ :=
    sampleWalk_spec hwf n (corpus.map (fun e => (e.1, 0))) _ 1 hcur0 hkeys0
  have hz := sum_zeros corpus
  constructor
  · rw [map_fst_pair, hk]
  · rw [sum_map_div, hs, hz]
    simp only [Nat.zero_add]
    exact div_self (by exact_mod_cast hn.ne')

/-- Witness for C7 on the two-page cycle with sample count 2 and the all-zero
draw stream. -/
theorem C7_witness :
    (0 < 2 ∧ wellFormed [("A", ["B"]), ("B", ["A"])]) ∧
    ((sample_pagerank [("A", ["B"]), ("B", ["A"])] (17/20) 2 (fun _ => 0)).map
        Prod.snd).sum = 1 :=
  ⟨⟨by norm_num, by decide⟩,
   (C7_sample_sum_one [("A", ["B"]), ("B", ["A"])] (17/20) 2 (fun _ => 0)
      (by decide) (by decide) (fun j => ⟨le_refl 0, by norm_num⟩) (by norm_num)).2⟩

/-- A three-page corpus on which `iterate_pagerank` with `d = 97/100`
oscillates too strongly to meet the per-node `0.001` threshold within the
100-pass cap: every pass changes every page's value by at least
`(97/100)^100 / 6 > 0.001`. -/
def c6corpus : List (String × List String) := [("A", ["B"]), ("B", ["A", "C"]), ("C", ["B"])]

/-- Closed form of the distribution held by `iterate_pagerank` on
`c6corpus` after `k` completed passes: the deviation from the fixed point
lies in the eigendirection `(1, -2, 1)` of the update matrix with
eigenvalue `-97/100`. -/
def c6state (k : ℕ) : Dist String :=
  [("A", 99/394 + (-(97:ℚ)/100)^k * (97/1182)),
   ("B", 196/394 - (-(97:ℚ)/100)^k * (97/591)),
   ("C", 99/394 + (-(97:ℚ)/100)^k * (97/1182))]

/-- Within the 100-pass window the oscillation factor stays above
`6/970`. -/
theorem c6_pow_lb {k : ℕ} (hk : k ≤ 99) : (6:ℚ)/970 ≤ (97/100)^k := by
  have h1 : ((97:ℚ)/100)^99 ≤ (97/100)^k :=
    pow_le_pow_of_le_one (by norm_num) (by norm_num) hk
  have h2 : (6:ℚ)/970 ≤ (97/100)^99 := by norm_num
  linarith

/-- A per-node delta of the `c6state` pass never falls below the `0.001`
threshold within the 100-pass window. -/
theorem c6_absurd {k : ℕ} (hk : k ≤ 99) {E c : ℚ} (h : |E| < 1/1000)
    (hE : E = (-(97:ℚ)/100)^k * c) (hc : (97:ℚ)/600 ≤ |c|) : False := by
  rw [hE, abs_mul, abs_pow] at h
  rw [show |(-(97:ℚ)/100)| = 97/100 by rw [abs_of_nonpos] <;> norm_num] at h
  have hpow := c6_pow_lb hk
  have h2 := mul_le_mul_of_nonneg_right hpow (show (0:ℚ) ≤ 97/600 by norm_num)
  have h3 : ((97:ℚ)/100)^k * (97/600) ≤ (97/100)^k * |c| :=
    mul_le_mul_of_nonneg_left hc (by positivity)
  linarith

/-- Every pass on `c6corpus` completes without an early return and advances
the closed-form state by one step. -/
theorem c6_pass {k : ℕ} (hk : k ≤ 99) :
    passGo c6corpus (97/100) (c6state k) c6corpus [] = Sum.inr (c6state (k + 1)) := by
  norm_num +decide [passGo, c6corpus, c6state, iterInner, dictGetD, dictFind?, dictSet]
  split
  · rename_i h
    exact (c6_absurd (c := -(97/600)) hk h (by ring) (by rw [abs_of_nonpos] <;> norm_num)).elim
  · split
    · rename_i h
      exact (c6_absurd (c := 97/300) hk h (by ring) (by rw [abs_of_nonneg] <;> norm_num)).elim
    · simp only [Sum.inr.injEq, List.cons.injEq, Prod.mk.injEq, true_and, and_true]
      refine ⟨by ring, by ring, by ring⟩

/-- Running the remaining fuel from any in-window state exhausts the loop. -/
theorem c6_loop : ∀ (f k : ℕ), k + f = 100 →
    iterLoop c6corpus (97/100) f (c6state k) = none := by
  intro f
  induction f with
  | zero => intro k _; rfl
  | succ f ih =>
    intro k hk
    rw [iterLoop_inr (c6_pass (by omega))]
    exact ih (k + 1) (by omega)

/-- C6: the spec requires a `NonConvergenceError` (or a flagged best
estimate) when 100 passes finish without convergence.  The code refutes
this: on `c6corpus` with `d = 97/100` every page's delta stays at or
above `(97/100)^100/6 > 0.001` on all 100 passes, the `while` loop runs
dry, and the function silently returns `None`. -/
theorem C6_nonconvergence_returns_none :
    iterate_pagerank c6corpus (97/100) = none := by
  have hinit : c6corpus.map (fun e => (e.1, 1 / (c6corpus.length : ℚ))) = c6state 0 := by
    norm_num [c6corpus, c6state]
  simp only [iterate_pagerank, hinit]
  exact c6_loop 100 0 rfl

end PageRank
